import Mathlib

/-!
Shallow embedding of `scripts/skip_failing_scenarios.py`.

The script has three parts:
* `analyze_failures`: reads cucumber JSON reports, collects the failed
  scenarios, deduplicates them by id and sorts them by (uri, line);
* `skip_failures`: for each failure, locates the scenario line in the
  feature file by a text match and inserts a `# SKIP REASON: ...` comment
  plus an `@skip` tag directly above it, unless a marker is already
  present within the four preceding lines;
* `cleanup_skip_tags`: normalizes inline `@skip  # reason` lines to the
  two-line form and drops consecutive duplicate bare `@skip` lines.

Modelling conventions: a text line is a `List Char` without its trailing
newline terminator; Python's `\s` character class is modelled by its ASCII
part; JSON dictionary fields read with `.get` are modelled as `Option`
fields (`none` = key absent).  File contents are `List Line`; the file
system touched by the writer is an association list from uri to contents.
-/

namespace SkipScenarios

abbrev Line := List Char

/-- The ASCII part of Python's `\s` class (` \t\n\r\x0b\x0c`). -/
def isPySpace (c : Char) : Bool :=
  c = ' ' || c = '\t' || c = '\n' || c = '\r' || c = '\x0b' || c = '\x0c'

/-- Left half of Python `str.strip()`. -/
def pyStripLeft (l : Line) : Line := l.dropWhile isPySpace

/-- Right half of Python `str.strip()`. -/
def pyStripRight (l : Line) : Line := (l.reverse.dropWhile isPySpace).reverse

/-- Python `str.strip()`: drop whitespace from both ends. -/
def pyStrip (l : Line) : Line := pyStripRight (pyStripLeft l)

/-- Python `s.split('\n')[0]`. -/
def firstLine (l : Line) : Line := l.takeWhile (fun c => c ≠ '\n')

/-- Leading whitespace of a line, Python `re.search(r'^(\s*)', line).group(1)`. -/
def leadingWS (l : Line) : Line := l.takeWhile isPySpace

def scenarioStr : Line := "Scenario".toList
def featureStr : Line := "Feature".toList
def skipTagStr : Line := "@skip".toList
def ignoreTagStr : Line := "@ignore".toList
def skipReasonStr : Line := "# SKIP REASON:".toList
def skipReasonSpStr : Line := "# SKIP REASON: ".toList
def failedStr : Line := "failed".toList
def scenarioTypeStr : Line := "scenario".toList
def unknownErrorStr : Line := "Unknown error".toList
def ellipsisStr : Line := "...".toList
def errorColonStr : Line := "Error: ".toList

/-! ## Report data model (`cucumber-report-ci.json`) -/

/-- Python `step.get('result', {})` with `result.get('status')` and
`result.get('error_message', 'Unknown error')`; `none` models an absent key. -/
structure StepResult where
  status : Option Line
  errorMessage : Option Line
  deriving DecidableEq

structure Step where
  result : StepResult
  deriving DecidableEq

structure Element where
  type : Option Line
  line : Int
  name : Line
  id : Line
  steps : List Step
  deriving DecidableEq

structure Feature where
  uri : Option Line
  elements : List Element
  deriving DecidableEq

/-- One record of the `failures` list built by `analyze_failures`. -/
structure Failure where
  uri : Line
  line : Int
  name : Line
  id : Line
  error : Line
  deriving DecidableEq

/-- Python `error_message = result.get('error_message', 'Unknown error');
if error_message: error_message = error_message.split('\n')[0].strip()`. -/
def extractError (res : StepResult) : Line :=
  let em := res.errorMessage.getD unknownErrorStr
  if em.isEmpty then em else pyStrip (firstLine em)

/-- The per-element body of the loop in `analyze_failures`: scan the steps in
order; the first step whose result status is `failed` marks the scenario as
failed and supplies the error message.  Elements whose type is not
`scenario` and elements without a failed step produce no record. -/
def elementFailure (uri : Line) (el : Element) : Option Failure :=
  if el.type ≠ some scenarioTypeStr then none
  else
    match el.steps.find? (fun st => decide (st.result.status = some failedStr)) with
    | none => none
    | some st => some ⟨uri, el.line, el.name, el.id, extractError st.result⟩

/-- Per-feature part of `analyze_failures`: `if not feature_uri: continue`
skips both an absent and an empty uri. -/
def featureFailures (f : Feature) : List Failure :=
  match f.uri with
  | none => []
  | some u => if u.isEmpty then [] else f.elements.filterMap (elementFailure u)

/-- All failures gathered across the report files, in report order. -/
def rawFailures (reports : List (List Feature)) : List Failure :=
  reports.flatMap (fun fs => fs.flatMap featureFailures)

/-- The dedup loop of `analyze_failures` (`seen_ids` accumulator): keep the
first record carrying each id, discard later ones. -/
def dedupById : List Failure → List Line → List Failure
  | [], _ => []
  | f :: rest, seen =>
    if f.id ∈ seen then dedupById rest seen
    else f :: dedupById rest (f.id :: seen)

/-- Python `unique_failures.sort(key=lambda x: (x['uri'], x['line']))`:
ascending lexicographic comparison of the pair. -/
def sortKeyLE (a b : Failure) : Bool :=
  decide (a.uri < b.uri ∨ (a.uri = b.uri ∧ a.line ≤ b.line))

/-- Function `analyze_failures` on already-parsed reports: gather, dedup, sort. -/
def analyze_failures (reports : List (List Feature)) : List Failure :=
  (dedupById (rawFailures reports) []).mergeSort sortKeyLE

/-! ## The annotation writer (`skip_failures`) -/

/-- The location test of the scan in `skip_failures`:
`line.strip().endswith(target_name)` and then
`line.strip().startswith('Scenario') and target_name in line`. -/
def scnMatch (name : Line) (l : Line) : Bool :=
  name.isSuffixOf (pyStrip l) &&
    (scenarioStr.isPrefixOf (pyStrip l) && decide (name <:+: l))

/-- The `for i, line in enumerate(lines)` scan with `break` on the first
line passing `scnMatch`; returns the index of that line. -/
def locateFrom (name : Line) : List Line → Option Nat
  | [] => none
  | l :: rest =>
    if scnMatch name l then some 0 else (locateFrom name rest).map Nat.succ

def locateScenario (lines : List Line) (name : Line) : Option Nat :=
  locateFrom name lines

/-- The test `prev_line.startswith('@skip') or prev_line.startswith('@ignore') or
prev_line.startswith('# SKIP REASON:')` on an already stripped line. -/
def isMarkerLine (l : Line) : Bool :=
  skipTagStr.isPrefixOf (pyStrip l) || ignoreTagStr.isPrefixOf (pyStrip l) ||
    skipReasonStr.isPrefixOf (pyStrip l)

/-- The test `prev_line.startswith('Scenario') or prev_line.startswith('Feature')`. -/
def isStopLine (l : Line) : Bool :=
  scenarioStr.isPrefixOf (pyStrip l) || featureStr.isPrefixOf (pyStrip l)

/-- The backward scan `for i in range(1, 5)` over the offsets `[1,2,3,4]`:
an offset reaching before the start of the file is passed over; a marker
line means "already skipped"; a `Scenario`/`Feature` line stops the scan. -/
def scanOffsets (lines : List Line) (idx : Nat) : List Nat → Bool
  | [] => false
  | m :: ms =>
    if m ≤ idx then
      let prev := lines.getD (idx - m) []
      if isMarkerLine prev then true
      else if isStopLine prev then false
      else scanOffsets lines idx ms
    else scanOffsets lines idx ms

def alreadySkipped (lines : List Line) (idx : Nat) : Bool :=
  scanOffsets lines idx [1, 2, 3, 4]

/-- Python `reason = failure['error'].replace('"', "'")` (both arguments are
single characters, so the replacement is a character map). -/
def normQuotes (l : Line) : Line :=
  l.map (fun c => if c = '"' then '\'' else c)

/-- Python `if len(reason) > 100: reason = reason[:97] + "..."`. -/
def buildReason (err : Line) : Line :=
  let r := normQuotes err
  if 100 < r.length then r.take 97 ++ ellipsisStr else r

/-- Python `f"{indentation}# SKIP REASON: {reason}\n"` (without the newline). -/
def skipCommentLine (ind reason : Line) : Line := ind ++ skipReasonSpStr ++ reason

/-- Python `f"{indentation}@skip\n"` (without the newline). -/
def skipTagLine (ind : Line) : Line := ind ++ skipTagStr

/-- The body of `for failure in file_failures` in `skip_failures`: locate
the scenario (or keep the state unchanged), check the backward window, and
if no marker is present insert the comment line and the tag line at the
located index (`lines.insert(line_idx, skip_tag)` then
`lines.insert(line_idx, skip_comment)`), setting the modified flag. -/
def applyFailure (st : List Line × Bool) (f : Failure) : List Line × Bool :=
  let (lines, modified) := st
  match locateScenario lines f.name with
  | none => (lines, modified)
  | some idx =>
    if alreadySkipped lines idx then (lines, modified)
    else
      let ind := leadingWS (lines.getD idx [])
      let reason := buildReason f.error
      ((lines.insertIdx idx (skipTagLine ind)).insertIdx idx
          (skipCommentLine ind reason), true)

/-- Python `file_failures.sort(key=lambda x: x['line'], reverse=True)`:
descending by line number. -/
def descByLine (a b : Failure) : Bool := decide (b.line ≤ a.line)

/-- Processing of one feature file in `skip_failures`: sort the file's
failures descending by reported line, then run the insertion loop; the
returned flag says whether the file must be written back. -/
def skipFile (lines : List Line) (fs : List Failure) : List Line × Bool :=
  (fs.mergeSort descByLine).foldl applyFailure (lines, false)

/-- The `files_to_modify` grouping: a Python dict keyed by uri, insertion
ordered, each group accumulating that uri's failures in list order. -/
def addToGroups (gs : List (Line × List Failure)) (f : Failure) :
    List (Line × List Failure) :=
  if gs.any (fun g => g.1 == f.uri) then
    gs.map (fun g => if g.1 == f.uri then (g.1, g.2 ++ [f]) else g)
  else gs ++ [(f.uri, [f])]

def groupByUri (fs : List Failure) : List (Line × List Failure) :=
  fs.foldl addToGroups []

/-- One iteration of `for uri, file_failures in files_to_modify.items()`:
a uri absent from the file system is warned about and skipped; otherwise
the file is processed and written back only if the modified flag is set. -/
def processGroup (fsys : List (Line × List Line)) (g : Line × List Failure) :
    List (Line × List Line) :=
  match fsys.lookup g.1 with
  | none => fsys
  | some lines =>
    let r := skipFile lines g.2
    if r.2 then fsys.map (fun e => if e.1 == g.1 then (e.1, r.1) else e) else fsys

/-- Function `skip_failures` acting on a file system (uri ↦ contents association
list), given the already-analyzed failure records: on an empty failure
list the function returns early and touches nothing. -/
def skip_failures (fsys : List (Line × List Line)) (fails : List Failure) :
    List (Line × List Line) :=
  if fails.isEmpty then fsys else (groupByUri fails).foldl processGroup fsys

/-! ## The normalizer (`cleanup_skip_tags`) -/

/-- Python `re.match(r'^(\s*)@skip\s+#\s*(.*)', line)`: leading whitespace, the
literal `@skip`, at least one whitespace, `#`; on success return the
captured indentation together with the cleaned reason: group 2 stripped
(stripping the reason subsumes the `\s*` after `#`), minus a leading
`Error: ` token. -/
def inlineSkipMatch (l : Line) : Option (Line × Line) :=
  let ind := l.takeWhile isPySpace
  let r1 := l.dropWhile isPySpace
  if skipTagStr.isPrefixOf r1 then
    let r2 := r1.drop 5
    if (r2.takeWhile isPySpace).isEmpty then none
    else
      match r2.dropWhile isPySpace with
      | [] => none
      | c :: rest =>
        if c = '#' then
          let reason0 := pyStrip rest
          let reason :=
            if errorColonStr.isPrefixOf reason0 then reason0.drop 7 else reason0
          some (ind, reason)
        else none
  else none

/-- The test `re.match(r'^\s*@skip\s+#', lines[i + 1])` of the inner
`while` loop. -/
def isInlineSkip (l : Line) : Bool := (inlineSkipMatch l).isSome

/-- The inner `while` of the cleanup loop: consume the run of consecutive
inline-skip lines following a matched one. -/
def dropInlineRun : List Line → List Line
  | [] => []
  | l :: rest => if isInlineSkip l then dropInlineRun rest else l :: rest

theorem dropInlineRun_length_le : ∀ rest : List Line,
    (dropInlineRun rest).length ≤ rest.length := by
  intro rest
  induction rest with
  | nil => simp [dropInlineRun]
  | cons l rest ih =>
    simp only [dropInlineRun]
    split
    · exact Nat.le_succ_of_le ih
    · simp

/-- The `while i < len(lines)` loop of `cleanup_skip_tags`; `acc` holds the
emitted lines most-recent first (so `new_lines[-1]` is `acc.headD []`),
and `m` is the `modified` flag.  Every iteration consumes at least one
input line, so the loop is driven by a fuel counter that starts at the
line count; the fuel-exhaustion branch is unreachable under `length ≤
fuel` and merely flushes the remaining lines. -/
def cleanupLoop : Nat → List Line → List Line → Bool → List Line × Bool
  | _, [], acc, m => (acc.reverse, m)
  | 0, l :: rest, acc, m => (acc.reverse ++ l :: rest, m)
  | fuel + 1, l :: rest, acc, m =>
    match inlineSkipMatch l with
    | some (ind, reason) =>
      cleanupLoop fuel (dropInlineRun rest)
        (skipTagLine ind :: skipCommentLine ind reason :: acc) true
    | none =>
      if pyStrip l = skipTagStr ∧ acc ≠ [] ∧ pyStrip (acc.headD []) = skipTagStr
      then cleanupLoop fuel rest acc true
      else cleanupLoop fuel rest (l :: acc) m

/-- Processing of one feature file by `cleanup_skip_tags`: the rewritten
lines, and whether the file is written back. -/
def cleanup_skip_tags (lines : List Line) : List Line × Bool :=
  cleanupLoop lines.length lines [] false

/-! ## String infrastructure lemmas -/

theorem pyStripLeft_append_ws {ws s : Line} (h : ∀ c ∈ ws, isPySpace c = true) :
    pyStripLeft (ws ++ s) = pyStripLeft s := by
  induction ws with
  | nil => simp
  | cons c rest ih =>
    have hc : isPySpace c = true := h c (List.mem_cons_self _ _)
    simp only [List.cons_append, pyStripLeft, List.dropWhile_cons, hc, if_true]
    exact ih fun c hc => h c (List.mem_cons_of_mem _ hc)

theorem pyStrip_append_ws {ws s : Line} (h : ∀ c ∈ ws, isPySpace c = true) :
    pyStrip (ws ++ s) = pyStrip s := by
  unfold pyStrip
  rw [pyStripLeft_append_ws h]

theorem pyStripRight_cons {c : Char} {s : Line} (h : isPySpace c = false) :
    pyStripRight (c :: s) = c :: pyStripRight s := by
  unfold pyStripRight
  rw [List.reverse_cons, List.dropWhile_append]
  split
  · next hemp =>
    rw [List.isEmpty_iff] at hemp
    simp [hemp, List.dropWhile, h]
  · rw [List.reverse_append]
    simp [List.dropWhile, h]

theorem pyStrip_cons_not_space {c : Char} {s : Line} (h : isPySpace c = false) :
    pyStrip (c :: s) = c :: pyStripRight s := by
  unfold pyStrip pyStripLeft
  rw [List.dropWhile_cons_of_neg (by simp [h]), pyStripRight_cons h]

theorem leadingWS_spaces (l : Line) : ∀ c ∈ leadingWS l, isPySpace c = true :=
  fun _ hc => List.mem_takeWhile_imp hc

theorem pyStrip_skipTagLine {ind : Line} (h : ∀ c ∈ ind, isPySpace c = true) :
    pyStrip (skipTagLine ind) = skipTagStr := by
  unfold skipTagLine
  rw [pyStrip_append_ws h]
  decide

theorem skipCommentLine_decomp (ind r : Line) :
    skipCommentLine ind r = ind ++ '#' :: (" SKIP REASON: ".toList ++ r) := by
  unfold skipCommentLine skipReasonSpStr
  simp

theorem pyStrip_skipCommentLine {ind r : Line} (h : ∀ c ∈ ind, isPySpace c = true) :
    pyStrip (skipCommentLine ind r) =
      '#' :: pyStripRight (" SKIP REASON: ".toList ++ r) := by
  rw [skipCommentLine_decomp, pyStrip_append_ws h,
    pyStrip_cons_not_space (by decide)]

theorem scenario_not_prefixOf_hash {s : Line} :
    scenarioStr.isPrefixOf ('#' :: s) = false := by
  simp [scenarioStr, List.isPrefixOf]

theorem scnMatch_skipTagLine {n ind : Line} (h : ∀ c ∈ ind, isPySpace c = true) :
    scnMatch n (skipTagLine ind) = false := by
  unfold scnMatch
  rw [pyStrip_skipTagLine h]
  have : scenarioStr.isPrefixOf skipTagStr = false := by decide
  simp [this]

theorem scnMatch_skipCommentLine {n ind r : Line}
    (h : ∀ c ∈ ind, isPySpace c = true) :
    scnMatch n (skipCommentLine ind r) = false := by
  unfold scnMatch
  rw [pyStrip_skipCommentLine h]
  simp [scenario_not_prefixOf_hash]

theorem isMarkerLine_skipTagLine {ind : Line} (h : ∀ c ∈ ind, isPySpace c = true) :
    isMarkerLine (skipTagLine ind) = true := by
  unfold isMarkerLine
  rw [pyStrip_skipTagLine h]
  decide

theorem isStopLine_of_scnMatch {n l : Line} (h : scnMatch n l = true) :
    isStopLine l = true := by
  unfold scnMatch at h
  unfold isStopLine
  rcases Bool.and_eq_true_iff.1 h with ⟨-, h2⟩
  rcases Bool.and_eq_true_iff.1 h2 with ⟨h3, -⟩
  simp [h3]

/-- Expressing `List.insertIdx` as a take/cons/drop decomposition. -/
theorem insertIdx_eq_take_drop {α : Type} (a : α) :
    ∀ (n : ℕ) (l : List α), n ≤ l.length →
      l.insertIdx n a = l.take n ++ a :: l.drop n := by
  intro n
  induction n with
  | zero => intro l _; simp [List.insertIdx_zero]
  | succ n ih =>
    intro l h
    cases l with
    | nil => simp at h
    | cons x xs =>
      rw [List.insertIdx_succ_cons, ih xs (Nat.le_of_succ_le_succ h)]
      simp

/-- The two `lines.insert(line_idx, …)` calls of `skip_failures` put the
comment, then the tag, directly above the previous content at `idx`. -/
theorem insert_two_eq {idx : ℕ} {lines : List Line} (c t : Line)
    (h : idx ≤ lines.length) :
    (lines.insertIdx idx t).insertIdx idx c =
      lines.take idx ++ c :: t :: lines.drop idx := by
  rw [insertIdx_eq_take_drop t idx lines h,
    insertIdx_eq_take_drop c idx _ (by
      rw [List.length_append, List.length_take]
      omega)]
  rw [List.take_append_of_le_length (by rw [List.length_take]; omega)]
  have htake : (lines.take idx).take idx = lines.take idx := by
    rw [List.take_take]; simp
  rw [htake, List.drop_append_of_le_length (by rw [List.length_take]; omega)]
  have hdrop : (lines.take idx).drop idx = [] := by
    rw [List.drop_take]; simp
  rw [hdrop]
  simp

/-! ## Locate lemmas -/

theorem locateFrom_some {name : Line} : ∀ {L : List Line} {i : ℕ},
    locateFrom name L = some i →
    i < L.length ∧ scnMatch name (L.getD i []) = true ∧
      ∀ j < i, scnMatch name (L.getD j []) = false := by
  intro L
  induction L with
  | nil => intro i h; simp [locateFrom] at h
  | cons l rest ih =>
    intro i h
    by_cases hm : scnMatch name l = true
    · simp only [locateFrom, hm, if_true, Option.some.injEq] at h
      subst h
      exact ⟨Nat.succ_pos _, by simpa using hm, fun j hj => absurd hj (Nat.not_lt_zero _)⟩
    · simp only [locateFrom, if_neg hm, Option.map_eq_some'] at h
      obtain ⟨i', hi', rfl⟩ := h
      obtain ⟨h1, h2, h3⟩ := ih hi'
      refine ⟨Nat.succ_lt_succ h1, by simpa using h2, ?_⟩
      intro j hj
      cases j with
      | zero => simpa using Bool.eq_false_iff.2 hm
      | succ j' => simpa using h3 j' (Nat.lt_of_succ_lt_succ hj)

theorem locateFrom_eq_none {name : Line} : ∀ {L : List Line},
    locateFrom name L = none ↔ ∀ l ∈ L, scnMatch name l = false := by
  intro L
  induction L with
  | nil => simp [locateFrom]
  | cons l rest ih =>
    by_cases hm : scnMatch name l = true
    · simp [locateFrom, hm]
    · simp only [locateFrom, if_neg hm, Option.map_eq_none', List.mem_cons]
      constructor
      · intro h x hx
        rcases hx with rfl | hx
        · exact Bool.eq_false_iff.2 hm
        · exact (ih.1 h) x hx
      · intro h
        exact ih.2 fun x hx => h x (Or.inr hx)

/-- Inserting lines that never pass `scnMatch` shifts the located index:
a hit before the insertion point is unchanged, a hit at or after it moves
down by the number of inserted lines (two). -/
theorem locateFrom_insert {name c t : Line} (hc : scnMatch name c = false)
    (ht : scnMatch name t = false) :
    ∀ (k : ℕ) (L : List Line), k ≤ L.length →
      locateFrom name (L.take k ++ c :: t :: L.drop k) =
        (locateFrom name L).map (fun i => if k ≤ i then i + 2 else i) := by
  intro k
  induction k with
  | zero =>
    intro L _
    simp only [List.take_zero, List.drop_zero, List.nil_append]
    simp only [locateFrom, hc, ht, if_false, Bool.false_eq_true]
    cases hL : locateFrom name L with
    | none => simp
    | some i => simp
  | succ k ih =>
    intro L hk
    cases L with
    | nil => simp at hk
    | cons a rest =>
      simp only [List.take_succ_cons, List.drop_succ_cons, List.cons_append]
      by_cases hm : scnMatch name a = true
      · simp [locateFrom, hm]
      · simp only [locateFrom, hm, if_false, Bool.false_eq_true,
          ih rest (Nat.le_of_succ_le_succ hk)]
        cases hr : locateFrom name rest with
        | none => simp
        | some i =>
          simp only [Option.map_some', Option.map_map]
          by_cases hki : k ≤ i
          · have h1 : k + 1 ≤ i + 1 := Nat.succ_le_succ hki
            simp [Function.comp, hki, h1]
          · have h1 : ¬ (k + 1 ≤ i + 1) := fun h => hki (Nat.le_of_succ_le_succ h)
            simp [Function.comp, hki, h1]

/-! ## Index lemmas for the two-line insertion -/

theorem insert2_getD_ge {L : List Line} {c t : Line} {k p : ℕ}
    (hkL : k ≤ L.length) (hkp : k ≤ p) :
    (L.take k ++ c :: t :: L.drop k).getD (p + 2) [] = L.getD p [] := by
  have hlen : (L.take k).length = k := List.length_take_of_le hkL
  rw [List.getD_eq_getElem?_getD, List.getD_eq_getElem?_getD,
    List.getElem?_append_right (by omega)]
  have h2 : p + 2 - (L.take k).length = (p - k) + 2 := by omega
  rw [h2]
  simp only [List.getElem?_cons_succ]
  rw [List.getElem?_drop]
  congr 2
  omega

theorem insert2_getD_lt {L : List Line} {c t : Line} {k p : ℕ}
    (hpk : p < k) (hkL : k ≤ L.length) :
    (L.take k ++ c :: t :: L.drop k).getD p [] = L.getD p [] := by
  have hlen : (L.take k).length = k := List.length_take_of_le hkL
  rw [List.getD_eq_getElem?_getD, List.getD_eq_getElem?_getD,
    List.getElem?_append, hlen, if_pos hpk, List.getElem?_take, if_pos hpk]

theorem insert2_getD_tag {L : List Line} {c t : Line} {k : ℕ}
    (hkL : k ≤ L.length) :
    (L.take k ++ c :: t :: L.drop k).getD (k + 1) [] = t := by
  have hlen : (L.take k).length = k := List.length_take_of_le hkL
  rw [List.getD_eq_getElem?_getD, List.getElem?_append_right (by omega)]
  have h2 : k + 1 - (L.take k).length = 1 := by omega
  rw [h2]
  simp

/-! ## `alreadySkipped` transfer lemmas -/

theorem scanOffsets_congr {L L' : List Line} {idx idx' : ℕ} :
    ∀ ms : List ℕ,
      (∀ m ∈ ms, ((m ≤ idx) ↔ (m ≤ idx')) ∧
        (m ≤ idx → L'.getD (idx' - m) [] = L.getD (idx - m) [])) →
      scanOffsets L' idx' ms = scanOffsets L idx ms := by
  intro ms
  induction ms with
  | nil => intro _; rfl
  | cons m rest ih =>
    intro h
    obtain ⟨hg, hv⟩ := h m (List.mem_cons_self _ _)
    have hrest := fun x hx => h x (List.mem_cons_of_mem _ hx)
    by_cases hm : m ≤ idx
    · simp only [scanOffsets, hm, if_true, hg.1 hm, if_true, hv hm]
      split
      · rfl
      · split
        · rfl
        · exact ih hrest
    · have hm' : ¬ m ≤ idx' := fun h' => hm (hg.2 h')
      simp only [scanOffsets, hm, hm', if_false]
      exact ih hrest

/-- After an insertion the scenario line sits two below its old position,
with the `@skip` tag line directly above it, so the backward scan finds a
marker at distance one. -/
theorem alreadySkipped_insert_self {L : List Line} {c ind : Line} {k : ℕ}
    (hkL : k ≤ L.length) (hind : ∀ ch ∈ ind, isPySpace ch = true) :
    alreadySkipped (L.take k ++ c :: skipTagLine ind :: L.drop k) (k + 2) = true := by
  simp only [alreadySkipped, scanOffsets]
  rw [if_pos (show 1 ≤ k + 2 by omega)]
  have hv : (L.take k ++ c :: skipTagLine ind :: L.drop k).getD (k + 2 - 1) []
      = skipTagLine ind := by
    have h21 : k + 2 - 1 = k + 1 := by omega
    rw [h21]; exact insert2_getD_tag hkL
  rw [hv, if_pos (isMarkerLine_skipTagLine hind)]

/-- Insertion strictly below a line (at larger index) leaves that line's
backward window untouched. -/
theorem alreadySkipped_insert_above {L : List Line} {c t : Line} {k i : ℕ}
    (hkL : k ≤ L.length) (hik : i < k) :
    alreadySkipped (L.take k ++ c :: t :: L.drop k) i = alreadySkipped L i := by
  apply scanOffsets_congr
  intro m _
  refine ⟨Iff.rfl, fun hm => ?_⟩
  exact insert2_getD_lt (by omega) hkL

/-- Insertion at index `k` below index `i`, where the line at `k` is a
`Scenario` line (a stop line that is not a marker): a positive backward
scan at `i` stays positive at the shifted index `i + 2`.  The reason: the
old scan finds its marker strictly before reaching distance `i - k`
(a stop line would have ended it there), and the window below that
distance is shifted as one block. -/
theorem alreadySkipped_shift {L : List Line} {c t : Line} {k i : ℕ}
    (hkL : k ≤ L.length) (hki : k < i)
    (hstop : isStopLine (L.getD k []) = true)
    (hmark : isMarkerLine (L.getD k []) = false)
    (h : alreadySkipped L i = true) :
    alreadySkipped (L.take k ++ c :: t :: L.drop k) (i + 2) = true := by
  have hv : ∀ m : ℕ, 1 ≤ m → m ≤ i - k →
      (L.take k ++ c :: t :: L.drop k).getD (i + 2 - m) [] = L.getD (i - m) [] := by
    intro m h1 h2
    have he : i + 2 - m = (i - m) + 2 := by omega
    rw [he]
    exact insert2_getD_ge hkL (by omega)
  have hB : i - k = 1 ∨ i - k = 2 ∨ i - k = 3 ∨ 4 ≤ i - k := by omega
  rcases hB with hB | hB | hB | hB
  · -- distance one: the old scan hits the stop line immediately, so it
    -- cannot have been positive
    exfalso
    simp only [alreadySkipped, scanOffsets] at h
    rw [if_pos (show 1 ≤ i by omega)] at h
    have hk1 : i - 1 = k := by omega
    rw [hk1, if_neg (by rw [hmark]; decide), if_pos hstop] at h
    exact absurd h (by decide)
  · -- distance two: the old marker must be at distance one
    simp only [alreadySkipped, scanOffsets] at h
    rw [if_pos (show 1 ≤ i by omega)] at h
    by_cases hm1 : isMarkerLine (L.getD (i - 1) []) = true
    · simp only [alreadySkipped, scanOffsets]
      rw [if_pos (show 1 ≤ i + 2 by omega), hv 1 (by omega) (by omega),
        if_pos hm1]
    · exfalso
      rw [if_neg hm1] at h
      by_cases hs1 : isStopLine (L.getD (i - 1) []) = true
      · rw [if_pos hs1] at h; exact absurd h (by decide)
      · rw [if_neg hs1, if_pos (show 2 ≤ i by omega)] at h
        have hk2 : i - 2 = k := by omega
        rw [hk2, if_neg (by rw [hmark]; decide), if_pos hstop] at h
        exact absurd h (by decide)
  · -- distance three: the old marker is at distance one or two
    simp only [alreadySkipped, scanOffsets] at h
    rw [if_pos (show 1 ≤ i by omega)] at h
    by_cases hm1 : isMarkerLine (L.getD (i - 1) []) = true
    · simp only [alreadySkipped, scanOffsets]
      rw [if_pos (show 1 ≤ i + 2 by omega), hv 1 (by omega) (by omega),
        if_pos hm1]
    · rw [if_neg hm1] at h
      by_cases hs1 : isStopLine (L.getD (i - 1) []) = true
      · rw [if_pos hs1] at h; exact absurd h (by decide)
      · rw [if_neg hs1, if_pos (show 2 ≤ i by omega)] at h
        by_cases hm2 : isMarkerLine (L.getD (i - 2) []) = true
        · simp only [alreadySkipped, scanOffsets]
          rw [if_pos (show 1 ≤ i + 2 by omega), hv 1 (by omega) (by omega),
            if_neg hm1, if_neg hs1, if_pos (show 2 ≤ i + 2 by omega),
            hv 2 (by omega) (by omega), if_pos hm2]
        · exfalso
          rw [if_neg hm2] at h
          by_cases hs2 : isStopLine (L.getD (i - 2) []) = true
          · rw [if_pos hs2] at h; exact absurd h (by decide)
          · rw [if_neg hs2, if_pos (show 3 ≤ i by omega)] at h
            have hk3 : i - 3 = k := by omega
            rw [hk3, if_neg (by rw [hmark]; decide), if_pos hstop] at h
            exact absurd h (by decide)
  · -- the whole window lies at or above the insertion point and shifts
    -- as one block
    have he : alreadySkipped (L.take k ++ c :: t :: L.drop k) (i + 2)
        = alreadySkipped L i := by
      apply scanOffsets_congr
      intro m hmem
      have hm4 : m ≤ 4 := by
        simp only [List.mem_cons, List.not_mem_nil, or_false] at hmem
        rcases hmem with rfl | rfl | rfl | rfl <;> omega
      constructor
      · constructor <;> intro <;> omega
      · intro _
        exact hv m (by
          simp only [List.mem_cons, List.not_mem_nil, or_false] at hmem
          rcases hmem with rfl | rfl | rfl | rfl <;> omega) (by omega)
    rw [he]
    exact h

/-! ## The writer invariant: every located scenario ends up guarded -/

/-- If the failure's scenario is locatable, its backward window contains a
marker. -/
def postCond (L : List Line) (f : Failure) : Prop :=
  ∀ i, locateScenario L f.name = some i → alreadySkipped L i = true

theorem applyFailure_none {L : List Line} {b : Bool} {f : Failure}
    (h : locateScenario L f.name = none) : applyFailure (L, b) f = (L, b) := by
  simp [applyFailure, h]

theorem applyFailure_skip {L : List Line} {b : Bool} {f : Failure} {idx : ℕ}
    (h : locateScenario L f.name = some idx)
    (hs : alreadySkipped L idx = true) : applyFailure (L, b) f = (L, b) := by
  simp [applyFailure, h, hs]

theorem applyFailure_insert {L : List Line} {b : Bool} {f : Failure} {idx : ℕ}
    (h : locateScenario L f.name = some idx)
    (hs : alreadySkipped L idx = false) :
    applyFailure (L, b) f =
      (L.take idx ++
        skipCommentLine (leadingWS (L.getD idx [])) (buildReason f.error) ::
        skipTagLine (leadingWS (L.getD idx [])) :: L.drop idx, true) := by
  have hlen : idx ≤ L.length := le_of_lt (locateFrom_some h).1
  simp only [applyFailure, h, hs, Bool.false_eq_true, if_false]
  rw [insert_two_eq _ _ hlen]

theorem isMarkerLine_eq_false_of_scnMatch {n l : Line} (h : scnMatch n l = true) :
    isMarkerLine l = false := by
  unfold scnMatch at h
  rcases Bool.and_eq_true_iff.1 h with ⟨-, h2⟩
  rcases Bool.and_eq_true_iff.1 h2 with ⟨h3, -⟩
  unfold isMarkerLine
  cases hp : pyStrip l with
  | nil => rw [hp] at h3; exact absurd h3 (by decide)
  | cons ch cs =>
    rw [hp] at h3
    have hch : ch = 'S' := by
      have : scenarioStr = 'S' :: "cenario".toList := by decide
      rw [this, List.isPrefixOf_cons₂] at h3
      exact (eq_of_beq (Bool.and_eq_true_iff.1 h3).1).symm
    subst hch
    have e1 : skipTagStr = '@' :: "skip".toList := by decide
    have e2 : ignoreTagStr = '@' :: "ignore".toList := by decide
    have e3 : skipReasonStr = '#' :: " SKIP REASON:".toList := by decide
    rw [e1, e2, e3, List.isPrefixOf_cons₂, List.isPrefixOf_cons₂,
      List.isPrefixOf_cons₂]
    simp [show ('@' == 'S') = false by decide, show ('#' == 'S') = false by decide]

/-- Processing one failure establishes the invariant for it. -/
theorem postCond_self (L : List Line) (b : Bool) (f : Failure) :
    postCond (applyFailure (L, b) f).1 f := by
  cases h : locateScenario L f.name with
  | none =>
    rw [applyFailure_none h]
    intro i hi
    rw [h] at hi
    exact absurd hi (by simp)
  | some idx =>
    by_cases hs : alreadySkipped L idx = true
    · rw [applyFailure_skip h hs]
      intro i hi
      rw [h] at hi
      cases hi
      exact hs
    · have hs' : alreadySkipped L idx = false := Bool.eq_false_iff.2 hs
      rw [applyFailure_insert h hs']
      intro i hi
      have hlen : idx ≤ L.length := le_of_lt (locateFrom_some h).1
      have hind := leadingWS_spaces (L.getD idx [])
      have hloc : locateScenario
          (L.take idx ++
            skipCommentLine (leadingWS (L.getD idx [])) (buildReason f.error) ::
            skipTagLine (leadingWS (L.getD idx [])) :: L.drop idx) f.name
          = some (idx + 2) := by
        unfold locateScenario
        rw [locateFrom_insert (scnMatch_skipCommentLine hind)
          (scnMatch_skipTagLine hind) idx L hlen]
        unfold locateScenario at h
        rw [h]
        simp
      rw [hloc] at hi
      cases hi
      exact alreadySkipped_insert_self hlen hind

/-- Processing one failure preserves the invariant for every other one. -/
theorem postCond_preserved {L : List Line} {g : Failure} (b : Bool) (f : Failure)
    (h : postCond L g) : postCond (applyFailure (L, b) f).1 g := by
  cases hf : locateScenario L f.name with
  | none => rw [applyFailure_none hf]; exact h
  | some idx =>
    by_cases hs : alreadySkipped L idx = true
    · rw [applyFailure_skip hf hs]; exact h
    · have hs' : alreadySkipped L idx = false := Bool.eq_false_iff.2 hs
      rw [applyFailure_insert hf hs']
      intro i' hi'
      have hlen : idx ≤ L.length := le_of_lt (locateFrom_some hf).1
      have hind := leadingWS_spaces (L.getD idx [])
      have hmatch : scnMatch f.name (L.getD idx []) = true :=
        (locateFrom_some hf).2.1
      unfold locateScenario at hi'
      rw [locateFrom_insert (scnMatch_skipCommentLine hind)
        (scnMatch_skipTagLine hind) idx L hlen] at hi'
      rw [Option.map_eq_some'] at hi'
      obtain ⟨i0, hi0, rfl⟩ := hi'
      have hsk : alreadySkipped L i0 = true := h i0 hi0
      by_cases hcase : idx ≤ i0
      · have hne : idx ≠ i0 := by
          intro he
          rw [he] at hs'
          rw [hs'] at hsk
          exact absurd hsk (by decide)
        have hlt : idx < i0 := lt_of_le_of_ne hcase hne
        rw [if_pos hcase]
        exact alreadySkipped_shift hlen hlt
          (isStopLine_of_scnMatch hmatch)
          (isMarkerLine_eq_false_of_scnMatch hmatch) hsk
      · have hlt : i0 < idx := Nat.lt_of_not_le hcase
        rw [if_neg hcase]
        rw [alreadySkipped_insert_above hlen hlt]
        exact hsk

theorem postCond_foldl_preserved :
    ∀ (gs : List Failure) (st : List Line × Bool) (g : Failure),
      postCond st.1 g → postCond (gs.foldl applyFailure st).1 g := by
  intro gs
  induction gs with
  | nil => intro st g h; exact h
  | cons f rest ih =>
    intro st g h
    rcases st with ⟨L, b⟩
    exact ih (applyFailure (L, b) f) g (postCond_preserved b f h)

theorem postCond_foldl_mem :
    ∀ (gs : List Failure) (st : List Line × Bool) (g : Failure),
      g ∈ gs → postCond (gs.foldl applyFailure st).1 g := by
  intro gs
  induction gs with
  | nil => intro st g h; exact absurd h (List.not_mem_nil g)
  | cons f rest ih =>
    intro st g h
    rcases st with ⟨L, b⟩
    rcases List.mem_cons.1 h with rfl | h
    · exact postCond_foldl_preserved rest _ g (postCond_self L b g)
    · exact ih _ g h

/-- A fold over failures that are all already guarded does nothing. -/
theorem foldl_of_postCond :
    ∀ (gs : List Failure) (L : List Line) (b : Bool),
      (∀ g ∈ gs, postCond L g) → gs.foldl applyFailure (L, b) = (L, b) := by
  intro gs
  induction gs with
  | nil => intro L b _; rfl
  | cons f rest ih =>
    intro L b h
    have hf := h f (List.mem_cons_self _ _)
    have hstep : applyFailure (L, b) f = (L, b) := by
      cases hl : locateScenario L f.name with
      | none => exact applyFailure_none hl
      | some idx => exact applyFailure_skip hl (hf idx hl)
    simp only [List.foldl_cons, hstep]
    exact ih L b fun g hg => h g (List.mem_cons_of_mem _ hg)

/-- Core of the idempotence property: re-running the per-file writer on
its own output changes nothing and reports no modification. -/
theorem skipFile_idem (L : List Line) (fs : List Failure) :
    skipFile (skipFile L fs).1 fs = ((skipFile L fs).1, false) := by
  unfold skipFile
  apply foldl_of_postCond
  intro g hg
  exact postCond_foldl_mem _ _ g hg

/-! ## The modified flag -/

theorem foldl_flag_mono : ∀ (gs : List Failure) (L : List Line),
    (gs.foldl applyFailure (L, true)).2 = true := by
  intro gs
  induction gs with
  | nil => intro L; rfl
  | cons f rest ih =>
    intro L
    cases hl : locateScenario L f.name with
    | none => simp only [List.foldl_cons, applyFailure_none hl]; exact ih L
    | some idx =>
      by_cases hs : alreadySkipped L idx = true
      · simp only [List.foldl_cons, applyFailure_skip hl hs]; exact ih L
      · simp only [List.foldl_cons,
          applyFailure_insert hl (Bool.eq_false_iff.2 hs)]
        exact ih _

theorem foldl_flag_false : ∀ (gs : List Failure) (L : List Line) (b : Bool),
    (gs.foldl applyFailure (L, b)).2 = false →
      b = false ∧ (gs.foldl applyFailure (L, b)).1 = L := by
  intro gs
  induction gs with
  | nil => intro L b h; exact ⟨h, rfl⟩
  | cons f rest ih =>
    intro L b h
    cases hl : locateScenario L f.name with
    | none =>
      rw [List.foldl_cons, applyFailure_none hl] at h ⊢
      exact ih L b h
    | some idx =>
      by_cases hs : alreadySkipped L idx = true
      · rw [List.foldl_cons, applyFailure_skip hl hs] at h ⊢
        exact ih L b h
      · rw [List.foldl_cons,
          applyFailure_insert hl (Bool.eq_false_iff.2 hs)] at h
        rw [foldl_flag_mono] at h
        exact absurd h (by decide)

/-- If the per-file writer reports no modification, the lines are exactly
the input lines: the file is only ever written when an insertion happened. -/
theorem skipFile_unmodified {L : List Line} {fs : List Failure}
    (h : (skipFile L fs).2 = false) : (skipFile L fs).1 = L := by
  unfold skipFile at h ⊢
  exact (foldl_flag_false _ L false h).2

/-! ## File-system lemmas for the writer -/

theorem lookup_cons_self (k : Line) (val : List Line)
    (rest : List (Line × List Line)) :
    List.lookup k ((k, val) :: rest) = some val := by
  simp [List.lookup]

theorem lookup_cons_ne {u k : Line} (h : (u == k) = false) (val : List Line)
    (rest : List (Line × List Line)) :
    List.lookup u ((k, val) :: rest) = List.lookup u rest := by
  simp [List.lookup, h]

theorem mapUpdate_lookup_ne (v : List Line) (w u : Line) (hne : u ≠ w) :
    ∀ fsys : List (Line × List Line),
      (fsys.map fun e => if e.1 == w then (e.1, v) else e).lookup u =
        fsys.lookup u := by
  intro fsys
  induction fsys with
  | nil => rfl
  | cons e rest ih =>
    rcases e with ⟨k, val⟩
    by_cases hk : k = w
    · subst hk
      have hu : (u == k) = false := beq_eq_false_iff_ne.2 hne
      simp only [List.map_cons, beq_self_eq_true, if_true]
      rw [lookup_cons_ne hu, lookup_cons_ne hu]
      exact ih
    · have hk2 : (k == w) = false := beq_eq_false_iff_ne.2 hk
      simp only [List.map_cons, hk2, Bool.false_eq_true, if_false]
      cases hu : u == k
      · rw [lookup_cons_ne hu, lookup_cons_ne hu]
        exact ih
      · have hu' : u = k := eq_of_beq hu
        subst hu'
        rw [lookup_cons_self, lookup_cons_self]

theorem mapUpdate_lookup_eq (v : List Line) (w : Line) :
    ∀ fsys : List (Line × List Line),
      (fsys.map fun e => if e.1 == w then (e.1, v) else e).lookup w =
        (fsys.lookup w).map fun _ => v := by
  intro fsys
  induction fsys with
  | nil => rfl
  | cons e rest ih =>
    rcases e with ⟨k, val⟩
    by_cases hk : k = w
    · subst hk
      simp only [List.map_cons, beq_self_eq_true, if_true]
      rw [lookup_cons_self, lookup_cons_self]
      rfl
    · have hk2 : (k == w) = false := beq_eq_false_iff_ne.2 hk
      have hw : (w == k) = false := beq_eq_false_iff_ne.2 fun h => hk h.symm
      simp only [List.map_cons, hk2, Bool.false_eq_true, if_false]
      rw [lookup_cons_ne hw, lookup_cons_ne hw]
      exact ih

theorem processGroup_lookup_ne {g : Line × List Failure} {u : Line}
    (hne : g.1 ≠ u) (fsys : List (Line × List Line)) :
    (processGroup fsys g).lookup u = fsys.lookup u := by
  unfold processGroup
  cases fsys.lookup g.1 with
  | none => rfl
  | some L =>
    simp only
    split
    · exact mapUpdate_lookup_ne _ _ _ (fun h => hne h.symm) fsys
    · rfl

theorem foldl_processGroup_lookup_ne {u : Line} :
    ∀ (gs : List (Line × List Failure)) (fsys : List (Line × List Line)),
      (∀ g ∈ gs, g.1 ≠ u) →
        (gs.foldl processGroup fsys).lookup u = fsys.lookup u := by
  intro gs
  induction gs with
  | nil => intro fsys _; rfl
  | cons g rest ih =>
    intro fsys h
    rw [List.foldl_cons, ih _ fun x hx => h x (List.mem_cons_of_mem _ hx)]
    exact processGroup_lookup_ne (h g (List.mem_cons_self _ _)) fsys

/-- What one run of the writer guarantees about each group's file: if the
uri is present afterwards, its contents satisfy the invariant for each of
the group's failures. -/
theorem foldl_processGroup_post :
    ∀ (gs : List (Line × List Failure)) (fsys : List (Line × List Line)),
      gs.Pairwise (fun a b => a.1 ≠ b.1) →
      ∀ g ∈ gs, ∀ L, (gs.foldl processGroup fsys).lookup g.1 = some L →
        ∀ f ∈ g.2, postCond L f := by
  intro gs
  induction gs with
  | nil => intro fsys _ g hg; exact absurd hg (List.not_mem_nil g)
  | cons g0 rest ih =>
    intro fsys hpw g hg L hL f hf
    rw [List.pairwise_cons] at hpw
    rcases List.mem_cons.1 hg with rfl | hg
    · rw [List.foldl_cons,
        foldl_processGroup_lookup_ne rest (processGroup fsys g)
          (fun x hx => (hpw.1 x hx).symm)] at hL
      unfold processGroup at hL
      cases h0 : fsys.lookup g.1 with
      | none => rw [h0] at hL; rw [h0] at hL; exact absurd hL (by simp)
      | some L0 =>
        rw [h0] at hL
        simp only at hL
        by_cases hm : (skipFile L0 g.2).2 = true
        · rw [if_pos hm, mapUpdate_lookup_eq, h0] at hL
          simp only [Option.map_some', Option.some.injEq] at hL
          subst hL
          unfold skipFile
          apply postCond_foldl_mem
          exact ((g.2.mergeSort_perm descByLine).mem_iff).2 hf
        · rw [if_neg hm, h0, Option.some.injEq] at hL
          subst hL
          have h1 : (skipFile L0 g.2).1 = L0 :=
            skipFile_unmodified (Bool.eq_false_iff.2 hm)
          rw [← h1]
          unfold skipFile
          apply postCond_foldl_mem
          exact ((g.2.mergeSort_perm descByLine).mem_iff).2 hf
    · exact ih (processGroup fsys g0) hpw.2 g hg L hL f hf

/-- A writer run over groups whose files already satisfy the invariant
changes nothing. -/
theorem foldl_processGroup_id :
    ∀ (gs : List (Line × List Failure)) (fsys : List (Line × List Line)),
      (∀ g ∈ gs, ∀ L, fsys.lookup g.1 = some L → ∀ f ∈ g.2, postCond L f) →
      gs.foldl processGroup fsys = fsys := by
  intro gs
  induction gs with
  | nil => intro fsys _; rfl
  | cons g0 rest ih =>
    intro fsys h
    have hstep : processGroup fsys g0 = fsys := by
      unfold processGroup
      cases h0 : fsys.lookup g0.1 with
      | none => rfl
      | some L0 =>
        have hpost : ∀ f ∈ g0.2.mergeSort descByLine, postCond L0 f := by
          intro f hf
          exact h g0 (List.mem_cons_self _ _) L0 h0 f
            (((g0.2.mergeSort_perm descByLine).mem_iff).1 hf)
        have hfix : skipFile L0 g0.2 = (L0, false) := by
          unfold skipFile
          exact foldl_of_postCond _ L0 false hpost
        simp only [hfix]
        simp
    rw [List.foldl_cons, hstep]
    exact ih fsys fun x hx => h x (List.mem_cons_of_mem _ hx)

/-- The keys of the python dict `files_to_modify` are distinct. -/
theorem groupByUri_pairwise (fs : List Failure) :
    (groupByUri fs).Pairwise (fun a b => a.1 ≠ b.1) := by
  have main : ∀ (l : List Failure) (acc : List (Line × List Failure)),
      acc.Pairwise (fun a b => a.1 ≠ b.1) →
        (l.foldl addToGroups acc).Pairwise (fun a b => a.1 ≠ b.1) := by
    intro l
    induction l with
    | nil => intro acc h; exact h
    | cons f rest ih =>
      intro acc h
      rw [List.foldl_cons]
      apply ih
      unfold addToGroups
      by_cases hany : acc.any (fun g => g.1 == f.uri) = true
      · rw [if_pos hany]
        apply List.Pairwise.map
        · intro a b hab
          have ka : (if a.1 == f.uri then (a.1, a.2 ++ [f]) else a).1 = a.1 := by
            split <;> rfl
          have kb : (if b.1 == f.uri then (b.1, b.2 ++ [f]) else b).1 = b.1 := by
            split <;> rfl
          rw [ka, kb]
          exact hab
        · exact h
      · rw [if_neg hany]
        rw [List.pairwise_append]
        refine ⟨h, List.pairwise_singleton _ _, ?_⟩
        intro a ha b hb
        rw [List.mem_singleton] at hb
        subst hb
        intro hk
        rw [List.any_eq_true] at hany
        push_neg at hany
        exact hany a ha (by rw [hk]; simp)
  unfold groupByUri
  exact main fs [] List.Pairwise.nil

/-! ## Supporting lemmas for the aggregator claims -/

theorem elementFailure_eq_none {uri : Line} {el : Element}
    (h : el.type = some scenarioTypeStr →
      ∀ st ∈ el.steps, st.result.status ≠ some failedStr) :
    elementFailure uri el = none := by
  unfold elementFailure
  split
  · rfl
  · next hty =>
    rw [List.find?_eq_none.2 (by
      intro st hst
      simp only [decide_eq_true_eq]
      exact h (not_not.1 hty) st hst)]

theorem flatMap_eq_nil_of {α β : Type} (f : α → List β) :
    ∀ l : List α, (∀ x ∈ l, f x = []) → l.flatMap f = [] := by
  intro l
  induction l with
  | nil => intro _; rfl
  | cons x rest ih =>
    intro h
    rw [List.flatMap_cons, h x (List.mem_cons_self _ _), List.nil_append]
    exact ih fun y hy => h y (List.mem_cons_of_mem _ hy)

theorem featureFailures_eq_nil {ft : Feature}
    (h : ∀ el ∈ ft.elements, el.type = some scenarioTypeStr →
      ∀ st ∈ el.steps, st.result.status ≠ some failedStr) :
    featureFailures ft = [] := by
  cases hu0 : ft.uri with
  | none => simp [featureFailures, hu0]
  | some u =>
    by_cases hu : u.isEmpty = true
    · simp [featureFailures, hu0, hu]
    · simp only [featureFailures, hu0]
      rw [if_neg hu]
      exact List.filterMap_eq_nil_iff.2 fun el hel =>
        elementFailure_eq_none fun hty st hst => h el hel hty st hst

theorem rawFailures_eq_nil {reports : List (List Feature)}
    (h : ∀ rep ∈ reports, ∀ ft ∈ rep, ∀ el ∈ ft.elements,
      el.type = some scenarioTypeStr →
      ∀ st ∈ el.steps, st.result.status ≠ some failedStr) :
    rawFailures reports = [] := by
  unfold rawFailures
  exact flatMap_eq_nil_of _ reports fun rep hrep =>
    flatMap_eq_nil_of _ rep fun ft hft =>
      featureFailures_eq_nil fun el hel hty st hst =>
        h rep hrep ft hft el hel hty st hst

theorem analyze_failures_eq_nil {reports : List (List Feature)}
    (h : ∀ rep ∈ reports, ∀ ft ∈ rep, ∀ el ∈ ft.elements,
      el.type = some scenarioTypeStr →
      ∀ st ∈ el.steps, st.result.status ≠ some failedStr) :
    analyze_failures reports = [] := by
  unfold analyze_failures
  rw [rawFailures_eq_nil h]
  exact List.mergeSort_nil

/-! ## Claim theorems -/

/-- C1: running the annotation writer a second time against the same
failure records and the file state produced by the first run inserts no
additional annotation lines.  Per file, the second pass returns the first
pass's lines with the modified flag `false` (every located scenario now has
a marker within the backward window, so each insertion is suppressed and
the file is not rewritten); consequently a second whole run over the file
system is the identity on the first run's result. -/
theorem second_writer_run_is_noop :
    (∀ (L : List Line) (fs : List Failure),
      skipFile (skipFile L fs).1 fs = ((skipFile L fs).1, false)) ∧
    (∀ (fsys : List (Line × List Line)) (fails : List Failure),
      skip_failures (skip_failures fsys fails) fails = skip_failures fsys fails) := by
  refine ⟨skipFile_idem, ?_⟩
  intro fsys fails
  by_cases hemp : fails.isEmpty = true
  · simp [skip_failures, hemp]
  · have hemp' : fails.isEmpty = false := Bool.eq_false_iff.2 hemp
    simp only [skip_failures, hemp', Bool.false_eq_true, if_false]
    apply foldl_processGroup_id
    intro g hg L hL f hf
    exact foldl_processGroup_post (groupByUri fails) fsys
      (groupByUri_pairwise fails) g hg L hL f hf

/-- C7: a target file is rewritten only when an insertion occurred: if the
per-file modified flag is `false` the resulting lines are exactly the input
lines.  In particular a report set in which no scenario element has a
failed step (failed steps inside non-scenario elements are ignored by the
type guard) produces an empty failure list and the whole writer run leaves
the file system untouched. -/
theorem writer_frame_no_failures :
    (∀ (L : List Line) (fs : List Failure),
      (skipFile L fs).2 = false → (skipFile L fs).1 = L) ∧
    (∀ (fsys : List (Line × List Line)) (reports : List (List Feature)),
      (∀ rep ∈ reports, ∀ ft ∈ rep, ∀ el ∈ ft.elements,
        el.type = some scenarioTypeStr →
        ∀ st ∈ el.steps, st.result.status ≠ some failedStr) →
      skip_failures fsys (analyze_failures reports) = fsys) := by
  constructor
  · intro L fs h
    exact skipFile_unmodified h
  · intro fsys reports h
    rw [analyze_failures_eq_nil h]
    rfl

/-- Witness for C7 at a concrete input: a report holding a `background`
element with a failed step and a scenario whose step passed yields no
failures — only scenario elements count — and leaves a one-file file
system alone. -/
theorem writer_frame_no_failures_witness :
    (skipFile ["Feature: f".toList, "  Scenario: s".toList] []).2 = false ∧
    (skipFile ["Feature: f".toList, "  Scenario: s".toList] []).1 =
      ["Feature: f".toList, "  Scenario: s".toList] ∧
    skip_failures [("a.feature".toList, ["Feature: f".toList])]
      (analyze_failures [[⟨some ("a.feature".toList),
        [⟨some ("background".toList), 1, "b".toList, "f;b".toList,
          [⟨⟨some failedStr, some ("bg boom".toList)⟩⟩]⟩,
         ⟨some scenarioTypeStr, 2, "s".toList, "f;s".toList,
          [⟨⟨some ("passed".toList), none⟩⟩]⟩]⟩]]) =
      [("a.feature".toList, ["Feature: f".toList])] := by
  have hflag : (skipFile ["Feature: f".toList, "  Scenario: s".toList] []).2
      = false := by
    unfold skipFile
    rw [List.mergeSort_nil]
    rfl
  refine ⟨hflag, ?_, ?_⟩
  · exact writer_frame_no_failures.1 _ [] hflag
  · exact writer_frame_no_failures.2 _ _ (by
      intro rep hrep ft hft el hel hty st hst
      simp only [List.mem_singleton] at hrep
      subst hrep
      simp only [List.mem_singleton] at hft
      subst hft
      simp only [List.mem_cons, List.mem_singleton, List.not_mem_nil,
        or_false] at hel
      rcases hel with hel | hel
      · subst hel
        exact absurd hty (by decide)
      · subst hel
        simp only [List.mem_singleton] at hst
        subst hst
        decide)

/-! ## The location predicate without the redundant conjunct -/

theorem pyStripRight_prefix_self (y : Line) : pyStripRight y <+: y := by
  unfold pyStripRight
  rw [← List.reverse_suffix, List.reverse_reverse]
  exact List.dropWhile_suffix _

theorem pyStrip_infix_self (l : Line) : pyStrip l <:+: l :=
  ((pyStripRight_prefix_self (pyStripLeft l)).isInfix).trans
    ((List.dropWhile_suffix _).isInfix)

/-- The conjunct `target_name in line` is implied by `line.strip().endswith(target_name)`,
so the match test collapses to the startswith/endswith pair. -/
theorem scnMatch_eq (name l : Line) :
    scnMatch name l =
      (scenarioStr.isPrefixOf (pyStrip l) && name.isSuffixOf (pyStrip l)) := by
  unfold scnMatch
  by_cases hs : name.isSuffixOf (pyStrip l) = true
  · have hinf : (decide (name <:+: l)) = true := by
      rw [decide_eq_true_eq]
      exact ((List.isSuffixOf_iff_suffix.1 hs).isInfix).trans (pyStrip_infix_self l)
    rw [hs, hinf]
    cases scenarioStr.isPrefixOf (pyStrip l) <;> rfl
  · rw [Bool.eq_false_iff.2 hs]
    cases scenarioStr.isPrefixOf (pyStrip l) <;> rfl

theorem locateFrom_eq_findIdx (name : Line) : ∀ L : List Line,
    locateFrom name L = L.findIdx? (fun l =>
      scenarioStr.isPrefixOf (pyStrip l) && name.isSuffixOf (pyStrip l)) := by
  intro L
  induction L with
  | nil => rfl
  | cons l rest ih =>
    rw [List.findIdx?_cons]
    unfold locateFrom
    rw [scnMatch_eq]
    cases hp : (scenarioStr.isPrefixOf (pyStrip l) && name.isSuffixOf (pyStrip l))
    · simp only [Bool.false_eq_true, if_false, List.findIdx?_succ, ih]
    · rfl

/-! ## Leading-whitespace preservation -/

theorem takeWhile_ws_append {p : Char → Bool} {ws : Line} {c0 : Char} {r : Line}
    (hws : ∀ c ∈ ws, p c = true) (hc : p c0 = false) :
    (ws ++ c0 :: r).takeWhile p = ws := by
  induction ws with
  | nil => simp [List.takeWhile_cons, hc]
  | cons c rest ih =>
    rw [List.cons_append, List.takeWhile_cons,
      if_pos (hws c (List.mem_cons_self _ _))]
    rw [ih fun x hx => hws x (List.mem_cons_of_mem _ hx)]

theorem leadingWS_skipCommentLine (ind r : Line)
    (h : ∀ c ∈ ind, isPySpace c = true) :
    leadingWS (skipCommentLine ind r) = ind := by
  rw [skipCommentLine_decomp]
  exact takeWhile_ws_append h (by decide)

theorem skipTagLine_decomp (ind : Line) :
    skipTagLine ind = ind ++ '@' :: "skip".toList := by
  unfold skipTagLine skipTagStr
  simp

theorem leadingWS_skipTagLine (ind : Line)
    (h : ∀ c ∈ ind, isPySpace c = true) :
    leadingWS (skipTagLine ind) = ind := by
  rw [skipTagLine_decomp]
  exact takeWhile_ws_append h (by decide)

/-- C5: a failure whose scenario name matches no line (no line both starts
with the scenario keyword and ends with the name, after stripping) is
skipped outright: the file state is untouched, there is no fallback to the
record's line number, and the fold simply continues with the remaining
failures from the same state. -/
theorem unlocatable_scenario_skipped :
    ∀ (L : List Line) (b : Bool) (f : Failure) (gs : List Failure),
      (∀ l ∈ L, ¬(scenarioStr.isPrefixOf (pyStrip l) = true ∧
          f.name.isSuffixOf (pyStrip l) = true)) →
      applyFailure (L, b) f = (L, b) ∧
      (f :: gs).foldl applyFailure (L, b) = gs.foldl applyFailure (L, b) := by
  intro L b f gs h
  have hnone : locateScenario L f.name = none := by
    unfold locateScenario
    apply locateFrom_eq_none.2
    intro l hl
    rw [scnMatch_eq]
    by_cases hpre : scenarioStr.isPrefixOf (pyStrip l) = true
    · by_cases hsuf : f.name.isSuffixOf (pyStrip l) = true
      · exact absurd ⟨hpre, hsuf⟩ (h l hl)
      · rw [hpre, Bool.eq_false_iff.2 hsuf]
        rfl
    · rw [Bool.eq_false_iff.2 hpre]
      rfl
  exact ⟨applyFailure_none hnone,
    by rw [List.foldl_cons, applyFailure_none hnone]⟩

/-- Witness for C5: a file holding only a `Feature:` line cannot locate
the scenario `missing`, and the writer leaves the state alone. -/
theorem unlocatable_scenario_skipped_witness :
    applyFailure (["Feature: f".toList], false)
      ⟨"a".toList, 5, "missing".toList, "i1".toList, "err".toList⟩ =
      (["Feature: f".toList], false) :=
  (unlocatable_scenario_skipped ["Feature: f".toList] false
    ⟨"a".toList, 5, "missing".toList, "i1".toList, "err".toList⟩ []
    (by
      intro l hl
      rw [List.mem_singleton] at hl
      subst hl
      decide)).1

/-- C8: when the writer inserts, the result is exactly the old lines with
two new lines (the reason comment, then the skip tag) placed directly
above the located scenario line; both inserted lines carry the leading
whitespace of that scenario line, which itself reappears two positions
further down. -/
theorem annotation_insert_shape :
    ∀ (L : List Line) (b : Bool) (f : Failure) (idx : ℕ),
      locateScenario L f.name = some idx →
      alreadySkipped L idx = false →
      applyFailure (L, b) f =
        (L.take idx ++
          skipCommentLine (leadingWS (L.getD idx [])) (buildReason f.error) ::
          skipTagLine (leadingWS (L.getD idx [])) :: L.drop idx, true) ∧
      (applyFailure (L, b) f).1.length = L.length + 2 ∧
      leadingWS (skipCommentLine (leadingWS (L.getD idx []))
        (buildReason f.error)) = leadingWS (L.getD idx []) ∧
      leadingWS (skipTagLine (leadingWS (L.getD idx []))) =
        leadingWS (L.getD idx []) ∧
      (applyFailure (L, b) f).1.getD (idx + 2) [] = L.getD idx [] := by
  intro L b f idx hloc hsk
  have hlen : idx ≤ L.length := le_of_lt (locateFrom_some hloc).1
  have hsp := leadingWS_spaces (L.getD idx [])
  have hmain := applyFailure_insert hloc hsk (b := b)
  refine ⟨hmain, ?_, leadingWS_skipCommentLine _ _ hsp,
    leadingWS_skipTagLine _ hsp, ?_⟩
  · rw [hmain]
    simp only [List.length_append, List.length_cons, List.length_drop,
      List.length_take_of_le hlen]
    omega
  · rw [hmain]
    exact insert2_getD_ge hlen (le_refl idx)

/-- Witness for C8: inserting above `  Scenario: bar` of a two-line file. -/
theorem annotation_insert_shape_witness :
    applyFailure (["Feature: f".toList, "  Scenario: bar".toList], false)
      ⟨"a".toList, 2, "bar".toList, "i1".toList, "boom".toList⟩ =
      (["Feature: f".toList, "  # SKIP REASON: boom".toList,
        "  @skip".toList, "  Scenario: bar".toList], true) := by
  have h := (annotation_insert_shape
    ["Feature: f".toList, "  Scenario: bar".toList] false
    ⟨"a".toList, 2, "bar".toList, "i1".toList, "boom".toList⟩ 1
    (by decide) (by decide)).1
  rw [h]
  decide

/-- C10: the location scan returns the first (lowest-index) line whose
stripped content starts with `Scenario` and ends with the recorded name
(the raw-substring conjunct being redundant); in particular a preceding
scenario whose name merely ends with the recorded name captures the
annotation, as the concrete two-scenario file shows. -/
theorem location_first_match_suffix_capture :
    (∀ (L : List Line) (name : Line),
      locateScenario L name = L.findIdx? (fun l =>
        scenarioStr.isPrefixOf (pyStrip l) && name.isSuffixOf (pyStrip l))) ∧
    (∀ (L : List Line) (name : Line) (i : ℕ),
      locateScenario L name = some i →
      scnMatch name (L.getD i []) = true ∧
      ∀ j < i, scnMatch name (L.getD j []) = false) ∧
    locateScenario ["  Scenario: foo bar".toList, "  Scenario: bar".toList]
      ("bar".toList) = some 0 := by
  refine ⟨fun L name => locateFrom_eq_findIdx name L, ?_, by decide⟩
  intro L name i h
  exact ⟨(locateFrom_some h).2.1, (locateFrom_some h).2.2⟩

/-- Witness for C10's hypothesis-bearing conjunct: at the concrete
two-scenario file, index 0 matches and there is nothing below it. -/
theorem location_first_match_suffix_capture_witness :
    scnMatch ("bar".toList)
      ((["  Scenario: foo bar".toList, "  Scenario: bar".toList]).getD 0 [])
      = true ∧
    ∀ j < 0, scnMatch ("bar".toList)
      ((["  Scenario: foo bar".toList, "  Scenario: bar".toList]).getD j [])
      = false :=
  location_first_match_suffix_capture.2.1
    ["  Scenario: foo bar".toList, "  Scenario: bar".toList]
    ("bar".toList) 0 (by decide)

/-! ## C3: first failed step determines the failure record -/

theorem extractError_eq (res : StepResult) :
    extractError res =
      pyStrip (firstLine (res.errorMessage.getD unknownErrorStr)) := by
  by_cases hem : (res.errorMessage.getD unknownErrorStr).isEmpty = true
  · rw [List.isEmpty_iff] at hem
    simp [extractError, hem, firstLine, pyStrip, pyStripLeft, pyStripRight]
  · simp [extractError, hem]

theorem find?_first {α : Type} {p : α → Bool} :
    ∀ (pre : List α) (s : α) (post : List α),
      (∀ t ∈ pre, p t = false) → p s = true →
      List.find? p (pre ++ s :: post) = some s := by
  intro pre
  induction pre with
  | nil => intro s post _ hs; exact List.find?_cons_of_pos _ hs
  | cons t rest ih =>
    intro s post hpre hs
    rw [List.cons_append, List.find?_cons_of_neg _ (by
      rw [hpre t (List.mem_cons_self _ _)]; exact Bool.false_ne_true)]
    exact ih s post (fun x hx => hpre x (List.mem_cons_of_mem _ hx)) hs

/-- C3: for a scenario element, the first step in order whose result
status is `failed` provides the failure record, with the error message
equal to the first line of the step's error message with surrounding
whitespace stripped; a scenario none of whose steps failed yields no
record. -/
theorem aggregator_first_failed_step :
    ∀ (uri : Line) (el : Element),
      (el.type = some scenarioTypeStr →
        ∀ (pre post : List Step) (s : Step),
          el.steps = pre ++ s :: post →
          (∀ t ∈ pre, t.result.status ≠ some failedStr) →
          s.result.status = some failedStr →
          elementFailure uri el = some ⟨uri, el.line, el.name, el.id,
            pyStrip (firstLine (s.result.errorMessage.getD unknownErrorStr))⟩) ∧
      ((∀ st ∈ el.steps, st.result.status ≠ some failedStr) →
        elementFailure uri el = none) := by
  intro uri el
  constructor
  · intro hty pre post s hsteps hpre hs
    unfold elementFailure
    rw [if_neg (fun hne => hne hty), hsteps,
      find?_first pre s post
        (fun t ht => decide_eq_false (hpre t ht)) (decide_eq_true hs)]
    simp [extractError_eq]
  · exact fun hall => elementFailure_eq_none fun _ => hall

/-- Witness for C3: one element whose second step failed. -/
theorem aggregator_first_failed_step_witness :
    elementFailure ("a.feature".toList)
      ⟨some scenarioTypeStr, 7, "s".toList, "f;s".toList,
        [⟨⟨some ("passed".toList), none⟩⟩,
         ⟨⟨some failedStr, some ("boom\nstack".toList)⟩⟩,
         ⟨⟨some ("skipped".toList), none⟩⟩]⟩ =
      some ⟨"a.feature".toList, 7, "s".toList, "f;s".toList,
        "boom".toList⟩ := by
  have h := (aggregator_first_failed_step ("a.feature".toList)
    ⟨some scenarioTypeStr, 7, "s".toList, "f;s".toList,
      [⟨⟨some ("passed".toList), none⟩⟩,
       ⟨⟨some failedStr, some ("boom\nstack".toList)⟩⟩,
       ⟨⟨some ("skipped".toList), none⟩⟩]⟩).1 rfl
    [⟨⟨some ("passed".toList), none⟩⟩]
    [⟨⟨some ("skipped".toList), none⟩⟩]
    ⟨⟨some failedStr, some ("boom\nstack".toList)⟩⟩
    rfl
    (by
      intro t ht
      rw [List.mem_singleton] at ht
      subst ht
      decide)
    rfl
  rw [h]
  decide

/-! ## C6: reason normalization and truncation -/

/-- C6: the written reason is the error with double quotes turned into
single quotes; messages of (normalized) length at most 100 pass through
unchanged, longer ones are cut to their first 97 characters plus the
three-character ellipsis, for a total length of exactly 100; a double
quote never survives. -/
theorem reason_normalization_truncation :
    ∀ err : Line,
      (¬ '"' ∈ buildReason err) ∧
      ((normQuotes err).length ≤ 100 → buildReason err = normQuotes err) ∧
      (100 < (normQuotes err).length →
        buildReason err = (normQuotes err).take 97 ++ ellipsisStr ∧
        (buildReason err).length = 100) := by
  intro err
  have hq : ¬ '"' ∈ normQuotes err := by
    unfold normQuotes
    rw [List.mem_map]
    rintro ⟨c, hc, he⟩
    by_cases h : c = '"'
    · rw [if_pos h] at he
      exact absurd he (by decide)
    · rw [if_neg h] at he
      exact h he
  refine ⟨?_, ?_, ?_⟩
  · simp only [buildReason]
    by_cases h1 : 100 < (normQuotes err).length
    · rw [if_pos h1]
      intro hm
      rcases List.mem_append.1 hm with hm | hm
      · exact hq (List.mem_of_mem_take hm)
      · revert hm
        decide
    · rw [if_neg h1]
      exact hq
  · intro hle
    simp only [buildReason]
    rw [if_neg (by omega)]
  · intro hgt
    simp only [buildReason]
    rw [if_pos hgt]
    refine ⟨rfl, ?_⟩
    rw [List.length_append, List.length_take]
    have h3 : ellipsisStr.length = 3 := by decide
    omega

/-- Witness for C6: a short message passes through with its quote
normalized; a 150-character message is cut to 97 plus the ellipsis. -/
theorem reason_normalization_truncation_witness :
    buildReason ("say \"hi\"".toList) = normQuotes ("say \"hi\"".toList) ∧
    buildReason (List.replicate 150 'a') =
      (normQuotes (List.replicate 150 'a')).take 97 ++ ellipsisStr ∧
    (buildReason (List.replicate 150 'a')).length = 100 :=
  ⟨(reason_normalization_truncation ("say \"hi\"".toList)).2.1 (by decide),
   (reason_normalization_truncation (List.replicate 150 'a')).2.2 (by
      simp [normQuotes])⟩

/-! ## Normalizer lemmas -/

theorem pyStripRight_eq_nil_iff {t : Line} :
    pyStripRight t = [] ↔ ∀ c ∈ t, isPySpace c = true := by
  unfold pyStripRight
  rw [List.reverse_eq_nil_iff, List.dropWhile_eq_nil_iff]
  constructor
  · intro h c hc
    exact h c (List.mem_reverse.2 hc)
  · intro h c hc
    exact h c (List.mem_reverse.1 hc)

theorem pyStripRight_append_of_mem {x t : Line} {c : Char} (hc : c ∈ t)
    (hw : isPySpace c = false) :
    pyStripRight (x ++ t) = x ++ pyStripRight t := by
  unfold pyStripRight
  rw [List.reverse_append, List.dropWhile_append]
  have hne : (t.reverse.dropWhile isPySpace).isEmpty = false := by
    rw [List.isEmpty_eq_false]
    intro hnil
    rw [List.dropWhile_eq_nil_iff] at hnil
    rw [hnil c (List.mem_reverse.2 hc)] at hw
    exact absurd hw (by decide)
  rw [hne]
  simp only [Bool.false_eq_true, if_false]
  rw [List.reverse_append, List.reverse_reverse]

/-- A successful inline-skip match captures the line's leading whitespace. -/
theorem inlineSkipMatch_spec {l : Line} {p : Line × Line}
    (h : inlineSkipMatch l = some p) :
    p.1 = l.takeWhile isPySpace ∧
    skipTagStr.isPrefixOf (l.dropWhile isPySpace) = true ∧
    ∃ rest, ((l.dropWhile isPySpace).drop 5).dropWhile isPySpace
      = '#' :: rest := by
  simp only [inlineSkipMatch] at h
  split at h
  · split at h
    · exact absurd h (by simp)
    · split at h
      · exact absurd h (by simp)
      · next c rest heq =>
        split at h
        · next hch =>
          subst hch
          simp only [Option.some.injEq] at h
          subst h
          exact ⟨rfl, by assumption, rest, heq⟩
        · exact absurd h (by simp)
  · exact absurd h (by simp)

/-- An inline-skip line strips to `@skip` followed by something nonempty:
its stripped form starts with the tag but is not the bare tag. -/
theorem inlineSkip_strip {l : Line} (h : isInlineSkip l = true) :
    skipTagStr <+: pyStrip l ∧ pyStrip l ≠ skipTagStr := by
  rw [isInlineSkip, Option.isSome_iff_exists] at h
  obtain ⟨p, hp⟩ := h
  obtain ⟨-, hpre, rest, hrest⟩ := inlineSkipMatch_spec hp
  obtain ⟨t, ht⟩ := List.isPrefixOf_iff_prefix.1 hpre
  have hteq : (l.dropWhile isPySpace).drop 5 = t := by
    rw [← ht]
    have h5 : skipTagStr.length = 5 := by decide
    rw [← h5]
    exact List.drop_left _ _
  have hhash : '#' ∈ t := by
    rw [← hteq]
    exact (List.dropWhile_suffix isPySpace).subset (hrest ▸ List.mem_cons_self _ _)
  have hsplit : pyStrip l = skipTagStr ++ pyStripRight t := by
    have h1 : pyStrip l = pyStrip (l.dropWhile isPySpace) := by
      conv_lhs => rw [← List.takeWhile_append_dropWhile (p := isPySpace) (l := l)]
      exact pyStrip_append_ws fun c hc => List.mem_takeWhile_imp hc
    rw [h1, ← ht]
    unfold pyStrip
    have h2 : pyStripLeft (skipTagStr ++ t) = skipTagStr ++ t := by
      unfold pyStripLeft
      rw [show skipTagStr ++ t = '@' :: ("skip".toList ++ t) from by simp [skipTagStr]]
      rw [List.dropWhile_cons_of_neg (by decide)]
    rw [h2]
    exact pyStripRight_append_of_mem hhash (by decide)
  constructor
  · rw [hsplit]
    exact List.prefix_append _ _
  · rw [hsplit]
    intro he
    have h0 : pyStripRight t = [] := by
      have := List.append_cancel_left (he.trans (List.append_nil skipTagStr).symm)
      exact this
    rw [pyStripRight_eq_nil_iff] at h0
    have := h0 '#' hhash
    exact absurd this (by decide)

/-- The adjacency constraint: not both of two neighbouring lines are bare
skip markers. -/
def noTwoSkips (a b : Line) : Prop :=
  ¬(pyStrip a = skipTagStr ∧ pyStrip b = skipTagStr)

theorem pyStrip_skipCommentLine_ne {ind r : Line}
    (h : ∀ c ∈ ind, isPySpace c = true) :
    pyStrip (skipCommentLine ind r) ≠ skipTagStr := by
  rw [pyStrip_skipCommentLine h]
  intro he
  have : '#' = '@' := by
    have h2 : skipTagStr = '@' :: "skip".toList := by decide
    rw [h2] at he
    exact (List.cons.injEq _ _ _ _ ▸ he).1
  exact absurd this (by decide)

theorem chain_noTwoSkips_reverse {acc : List Line}
    (h : List.Chain' noTwoSkips acc) :
    List.Chain' noTwoSkips acc.reverse := by
  rw [List.chain'_reverse]
  exact h.imp fun a b hab => fun ⟨x, y⟩ => hab ⟨y, x⟩

theorem cleanupLoop_chain :
    ∀ (fuel : Nat) (lines acc : List Line) (m : Bool),
      lines.length ≤ fuel →
      List.Chain' noTwoSkips acc →
      List.Chain' noTwoSkips (cleanupLoop fuel lines acc m).1 := by
  intro fuel
  induction fuel with
  | zero =>
    intro lines acc m hlen hacc
    rw [List.length_eq_zero.1 (Nat.le_zero.1 hlen)]
    exact chain_noTwoSkips_reverse hacc
  | succ fuel ih =>
    intro lines acc m hlen hacc
    cases lines with
    | nil => exact chain_noTwoSkips_reverse hacc
    | cons l rest =>
      rw [List.length_cons, Nat.succ_le_succ_iff] at hlen
      simp only [cleanupLoop]
      cases him : inlineSkipMatch l with
      | some p =>
        rcases p with ⟨ind, reason⟩
        have hws : ∀ c ∈ ind, isPySpace c = true := by
          have hind := (inlineSkipMatch_spec him).1
          simp only at hind
          rw [hind]
          exact fun c hc => List.mem_takeWhile_imp hc
        apply ih _ _ true (le_trans (dropInlineRun_length_le rest) hlen)
        rw [List.chain'_cons']
        constructor
        · intro b hb
          rw [List.head?_cons, Option.mem_some_iff] at hb
          subst hb
          exact fun ⟨_, hy⟩ => pyStrip_skipCommentLine_ne hws hy
        · rw [List.chain'_cons']
          refine ⟨fun b _ => fun ⟨hx, _⟩ => pyStrip_skipCommentLine_ne hws hx,
            hacc⟩
      | none =>
        by_cases hcond : pyStrip l = skipTagStr ∧ acc ≠ [] ∧
            pyStrip (acc.headD []) = skipTagStr
        · rw [if_pos hcond]
          exact ih rest acc true hlen hacc
        · rw [if_neg hcond]
          apply ih rest _ m hlen
          rw [List.chain'_cons']
          refine ⟨?_, hacc⟩
          intro b hb
          intro ⟨h1, h2⟩
          apply hcond
          refine ⟨h1, ?_, ?_⟩
          · cases acc with
            | nil => simp at hb
            | cons x xs => simp
          · cases acc with
            | nil => simp at hb
            | cons x xs =>
              rw [List.head?_cons, Option.mem_some_iff] at hb
              subst hb
              exact h2

/-- Adjacent-pair constraint of a canonical file: a bare marker is never
preceded by another bare marker (it sits below its reason comment). -/
def noDupStep (a b : Line) : Prop :=
  pyStrip b = skipTagStr → pyStrip a ≠ skipTagStr

/-- A file in canonical form: every line carrying the skip tag is the bare
tag (no inline comment after it), and every bare tag line directly follows
its reason-comment line. -/
def canonicalFile (lines : List Line) : Prop :=
  (∀ l ∈ lines, skipTagStr <+: pyStrip l → pyStrip l = skipTagStr) ∧
  List.Chain' (fun a b => pyStrip b = skipTagStr → skipReasonStr <+: pyStrip a)
    lines

theorem cleanupLoop_canonical_aux :
    ∀ (fuel : Nat) (lines acc : List Line) (m : Bool),
      lines.length ≤ fuel →
      (∀ l ∈ lines, isInlineSkip l = false) →
      List.Chain' noDupStep lines →
      (∀ h0 ∈ lines.head?, pyStrip h0 = skipTagStr →
        acc = [] ∨ pyStrip (acc.headD []) ≠ skipTagStr) →
      cleanupLoop fuel lines acc m = (acc.reverse ++ lines, m) := by
  intro fuel
  induction fuel with
  | zero =>
    intro lines acc m hlen _ _ _
    rw [List.length_eq_zero.1 (Nat.le_zero.1 hlen)]
    simp [cleanupLoop]
  | succ fuel ih =>
    intro lines acc m hlen hinl hchain hlink
    cases lines with
    | nil => simp [cleanupLoop]
    | cons l rest =>
      rw [List.length_cons, Nat.succ_le_succ_iff] at hlen
      simp only [cleanupLoop]
      cases him : inlineSkipMatch l with
      | some p =>
        exfalso
        have hfalse := hinl l (List.mem_cons_self _ _)
        rw [isInlineSkip, him] at hfalse
        exact absurd hfalse (by simp)
      | none =>
        have hcond : ¬(pyStrip l = skipTagStr ∧ acc ≠ [] ∧
            pyStrip (acc.headD []) = skipTagStr) := by
          rintro ⟨h1, h2, h3⟩
          rcases hlink l (by simp) h1 with h4 | h4
          · exact h2 h4
          · exact h4 h3
        rw [if_neg hcond]
        rw [ih rest (l :: acc) m hlen
          (fun x hx => hinl x (List.mem_cons_of_mem _ hx))
          (List.chain'_cons'.1 hchain).2
          (by
            intro h0 hh0 hskip
            right
            have hrel := (List.chain'_cons'.1 hchain).1 h0 hh0
            simpa using hrel hskip)]
        simp

/-- C9 canonical part: a canonical file passes the normalizer unchanged
with the modified flag off. -/
theorem cleanup_canonical_noop :
    ∀ lines : List Line, canonicalFile lines →
      cleanup_skip_tags lines = (lines, false) := by
  intro lines hcan
  unfold cleanup_skip_tags
  rw [cleanupLoop_canonical_aux lines.length lines [] false (le_refl _)
    ?inl ?chain ?link]
  · simp
  case inl =>
    intro l hl
    by_cases hil : isInlineSkip l = true
    · obtain ⟨hpre, hne⟩ := inlineSkip_strip hil
      exact absurd (hcan.1 l hl hpre) hne
    · exact Bool.eq_false_iff.2 hil
  case chain =>
    exact hcan.2.imp fun a b hab => fun hb ha => by
      have := hab hb
      rw [ha] at this
      exact absurd this (by decide)
  case link =>
    intro h0 _ _
    exact Or.inl rfl

theorem cleanupLoop_nil (fuel : Nat) (acc : List Line) (m : Bool) :
    cleanupLoop fuel [] acc m = (acc.reverse, m) := by
  cases fuel <;> rfl

/-- One loop iteration that emits a line unchanged. -/
theorem cleanupLoop_step_emit {fuel : Nat} {l : Line} {rest acc : List Line}
    {m : Bool} (h1 : inlineSkipMatch l = none)
    (h2 : ¬(pyStrip l = skipTagStr ∧ acc ≠ [] ∧
      pyStrip (acc.headD []) = skipTagStr)) :
    cleanupLoop (fuel + 1) (l :: rest) acc m =
      cleanupLoop fuel rest (l :: acc) m := by
  simp only [cleanupLoop, h1, if_neg h2]

/-- One loop iteration that drops a duplicate bare marker. -/
theorem cleanupLoop_step_dup {fuel : Nat} {l : Line} {rest acc : List Line}
    {m : Bool} (h1 : inlineSkipMatch l = none)
    (h2 : pyStrip l = skipTagStr ∧ acc ≠ [] ∧
      pyStrip (acc.headD []) = skipTagStr) :
    cleanupLoop (fuel + 1) (l :: rest) acc m =
      cleanupLoop fuel rest acc true := by
  simp only [cleanupLoop, h1, if_pos h2]

/-- The run-swallowing part of the duplicate-collapse argument: from a
state whose last emitted line is a bare tag, a run of bare tags followed
by a scenario line is reduced to just the scenario line. -/
theorem cleanupLoop_swallow :
    ∀ (n fuel : Nat) (acc : List Line) (m : Bool),
      n + 1 ≤ fuel → acc ≠ [] → pyStrip (acc.headD []) = skipTagStr →
      cleanupLoop fuel
        (List.replicate n skipTagStr ++ ["  Scenario: s".toList]) acc m
        = (acc.reverse ++ ["  Scenario: s".toList],
           if n = 0 then m else true) := by
  intro n
  induction n with
  | zero =>
    intro fuel acc m hf hne hhead
    cases fuel with
    | zero => omega
    | succ fuel =>
      rw [List.replicate, List.nil_append]
      rw [cleanupLoop_step_emit (by decide) (by
        rintro ⟨h1, -, -⟩
        exact absurd h1 (by decide))]
      rw [cleanupLoop_nil]
      simp
  | succ n ih =>
    intro fuel acc m hf hne hhead
    cases fuel with
    | zero => omega
    | succ fuel =>
      rw [List.replicate_succ, List.cons_append]
      rw [cleanupLoop_step_dup (by decide) ⟨by decide, hne, hhead⟩]
      rw [ih fuel acc true (by omega) hne hhead]
      cases n <;> simp

/-- C9 collapse part: any run of at least two consecutive bare markers
under one reason comment reduces to a single marker, with the file marked
modified. -/
theorem cleanup_collapse_duplicates :
    ∀ n : Nat,
      cleanup_skip_tags (("# SKIP REASON: x".toList) ::
          (List.replicate (n + 2) skipTagStr ++ ["  Scenario: s".toList])) =
        (["# SKIP REASON: x".toList, skipTagStr, "  Scenario: s".toList],
         true) := by
  intro n
  unfold cleanup_skip_tags
  have hlen : (("# SKIP REASON: x".toList) ::
      (List.replicate (n + 2) skipTagStr ++
        ["  Scenario: s".toList])).length = n + 4 := by
    simp only [List.length_cons, List.length_append, List.length_replicate,
      List.length_nil]
  rw [hlen]
  rw [cleanupLoop_step_emit (by decide) (by
    rintro ⟨-, h2, -⟩
    exact h2 rfl)]
  have hrep : List.replicate (n + 2) skipTagStr =
      skipTagStr :: List.replicate (n + 1) skipTagStr := by
    rw [List.replicate_succ]
  rw [hrep, List.cons_append]
  rw [cleanupLoop_step_emit (by decide) (by
    rintro ⟨-, -, h3⟩
    exact absurd h3 (by decide))]
  rw [cleanupLoop_swallow (n + 1) (n + 2)
    [skipTagStr, "# SKIP REASON: x".toList] false (by omega) (by simp)
    (by decide)]
  simp

/-- C2 (as stated) is false: a file carrying two complete annotation pairs
(one reason comment plus one bare marker, twice) directly above one
scenario passes the cleanup mode unchanged — the normalizer does not
delete duplicate annotation pairs, only consecutive duplicate marker
lines. -/
theorem cleanup_keeps_duplicate_pairs_counterexample :
    cleanup_skip_tags
      ["# SKIP REASON: a".toList, "@skip".toList,
       "# SKIP REASON: b".toList, "@skip".toList,
       "  Scenario: X".toList] =
      (["# SKIP REASON: a".toList, "@skip".toList,
        "# SKIP REASON: b".toList, "@skip".toList,
        "  Scenario: X".toList], false) := by
  decide

/-- C2 amended: after the normalizer runs, no two consecutive lines of the
output are both bare skip markers — consecutive duplicate markers are
collapsed — though duplicate reason-comment/marker pairs are retained. -/
theorem cleanup_no_adjacent_bare_skips :
    ∀ lines : List Line,
      List.Chain' noTwoSkips (cleanup_skip_tags lines).1 := by
  intro lines
  exact cleanupLoop_chain lines.length lines [] false (le_refl _)
    List.chain'_nil

/-- C9: the normalizer is a no-op on canonical input (byte-identical
output, modified flag off, hence no rewrite) and collapses any run of
consecutive duplicate bare markers to a single marker. -/
theorem normalizer_roundtrip :
    (∀ lines : List Line, canonicalFile lines →
      cleanup_skip_tags lines = (lines, false)) ∧
    (∀ n : Nat,
      cleanup_skip_tags (("# SKIP REASON: x".toList) ::
          (List.replicate (n + 2) skipTagStr ++ ["  Scenario: s".toList])) =
        (["# SKIP REASON: x".toList, skipTagStr, "  Scenario: s".toList],
         true)) :=
  ⟨cleanup_canonical_noop, cleanup_collapse_duplicates⟩

/-- Witness for C9: a concrete canonical file is left byte-identical. -/
theorem normalizer_roundtrip_witness :
    cleanup_skip_tags
      ["Feature: f".toList, "# SKIP REASON: a".toList, "@skip".toList,
       "  Scenario: X".toList] =
      (["Feature: f".toList, "# SKIP REASON: a".toList, "@skip".toList,
        "  Scenario: X".toList], false) :=
  normalizer_roundtrip.1 _ (by
    refine ⟨by decide, List.chain'_cons.2 ⟨by decide,
      List.chain'_cons.2 ⟨by decide,
        List.chain'_cons.2 ⟨by decide, List.chain'_singleton _⟩⟩⟩⟩)

/-! ## C4: deduplication and sorting -/

theorem sortKeyLE_trans : ∀ a b c : Failure, sortKeyLE a b = true →
    sortKeyLE b c = true → sortKeyLE a c = true := by
  intro a b c hab hbc
  simp only [sortKeyLE, decide_eq_true_eq] at hab hbc ⊢
  rcases hab with h1 | ⟨h1, h2⟩
  · rcases hbc with h3 | ⟨h3, h4⟩
    · exact Or.inl (lt_trans h1 h3)
    · exact Or.inl (h3 ▸ h1)
  · rcases hbc with h3 | ⟨h3, h4⟩
    · exact Or.inl (h1 ▸ h3)
    · exact Or.inr ⟨h1.trans h3, le_trans h2 h4⟩

theorem sortKeyLE_total : ∀ a b : Failure,
    (sortKeyLE a b || sortKeyLE b a) = true := by
  intro a b
  simp only [sortKeyLE, Bool.or_eq_true, decide_eq_true_eq]
  rcases lt_trichotomy a.uri b.uri with h | h | h
  · exact Or.inl (Or.inl h)
  · rcases le_total a.line b.line with h2 | h2
    · exact Or.inl (Or.inr ⟨h, h2⟩)
    · exact Or.inr (Or.inr ⟨h.symm, h2⟩)
  · exact Or.inr (Or.inl h)

theorem dedupById_not_in_seen : ∀ (l : List Failure) (seen : List Line)
    (g : Failure), g ∈ dedupById l seen → g.id ∉ seen := by
  intro l
  induction l with
  | nil => intro seen g hg; exact absurd hg (List.not_mem_nil g)
  | cons f rest ih =>
    intro seen g hg
    unfold dedupById at hg
    by_cases hf : f.id ∈ seen
    · rw [if_pos hf] at hg
      exact ih seen g hg
    · rw [if_neg hf] at hg
      rcases List.mem_cons.1 hg with rfl | hg
      · exact hf
      · exact fun hin => ih _ g hg (List.mem_cons_of_mem _ hin)

/-- Deduplication keeps exactly the first record bearing each id. -/
theorem dedupById_find : ∀ (l : List Failure) (seen : List Line)
    (g : Failure), g ∈ dedupById l seen →
      l.find? (fun x => x.id == g.id) = some g := by
  intro l
  induction l with
  | nil => intro seen g hg; exact absurd hg (List.not_mem_nil g)
  | cons f rest ih =>
    intro seen g hg
    unfold dedupById at hg
    by_cases hf : f.id ∈ seen
    · rw [if_pos hf] at hg
      have hgid := dedupById_not_in_seen rest seen g hg
      have hne : (f.id == g.id) = false :=
        beq_eq_false_iff_ne.2 fun he => hgid (he ▸ hf)
      rw [List.find?_cons_of_neg _ (by rw [hne]; exact Bool.false_ne_true)]
      exact ih seen g hg
    · rw [if_neg hf] at hg
      rcases List.mem_cons.1 hg with rfl | hg
      · exact List.find?_cons_of_pos _ (by simp)
      · have hgid := dedupById_not_in_seen rest _ g hg
        have hne : (f.id == g.id) = false :=
          beq_eq_false_iff_ne.2
            fun he => hgid (he ▸ List.mem_cons_self f.id seen)
        rw [List.find?_cons_of_neg _ (by rw [hne]; exact Bool.false_ne_true)]
        exact ih _ g hg

theorem dedupById_ids_nodup : ∀ (l : List Failure) (seen : List Line),
    ((dedupById l seen).map (fun f => f.id)).Nodup := by
  intro l
  induction l with
  | nil => intro seen; simp [dedupById]
  | cons f rest ih =>
    intro seen
    unfold dedupById
    by_cases hf : f.id ∈ seen
    · rw [if_pos hf]
      exact ih _
    · rw [if_neg hf]
      rw [List.map_cons, List.nodup_cons]
      refine ⟨?_, ih _⟩
      rw [List.mem_map]
      rintro ⟨g, hg, he⟩
      exact dedupById_not_in_seen rest _ g hg
        (he ▸ List.mem_cons_self f.id seen)

theorem dedupById_id_mem : ∀ (l : List Failure) (seen : List Line)
    (f : Failure), f ∈ l → f.id ∉ seen →
      ∃ g ∈ dedupById l seen, g.id = f.id := by
  intro l
  induction l with
  | nil => intro seen f hf; exact absurd hf (List.not_mem_nil f)
  | cons x rest ih =>
    intro seen f hf hseen
    unfold dedupById
    by_cases hx : x.id ∈ seen
    · rw [if_pos hx]
      rcases List.mem_cons.1 hf with rfl | hf
      · exact absurd hx hseen
      · exact ih seen f hf hseen
    · rw [if_neg hx]
      rcases List.mem_cons.1 hf with rfl | hf
      · exact ⟨f, List.mem_cons_self _ _, rfl⟩
      · by_cases hid : f.id = x.id
        · exact ⟨x, List.mem_cons_self _ _, hid.symm⟩
        · obtain ⟨g, hg, he⟩ := ih (x.id :: seen) f hf (by
            intro hmem
            rcases List.mem_cons.1 hmem with h | h
            · exact hid h
            · exact hseen h)
          exact ⟨g, List.mem_cons_of_mem _ hg, he⟩

/-- C4: the aggregator output carries pairwise-distinct identifiers (one
record per id — hence one annotation per id), every surviving record is
the first raw record with its id (later duplicates are discarded), every
raw id is represented, and the output is sorted ascending by the pair
(uri, line). -/
theorem dedup_sort_by_uri_line :
    ∀ reports : List (List Feature),
      ((analyze_failures reports).map (fun f => f.id)).Nodup ∧
      (analyze_failures reports).Pairwise (fun a b =>
        a.uri < b.uri ∨ (a.uri = b.uri ∧ a.line ≤ b.line)) ∧
      (∀ g ∈ analyze_failures reports,
        (rawFailures reports).find? (fun x => x.id == g.id) = some g) ∧
      (∀ f ∈ rawFailures reports,
        ∃ g ∈ analyze_failures reports, g.id = f.id) := by
  intro reports
  have hperm := (dedupById (rawFailures reports) []).mergeSort_perm sortKeyLE
  unfold analyze_failures
  refine ⟨?_, ?_, ?_, ?_⟩
  · rw [(hperm.map (fun f => f.id)).nodup_iff]
    exact dedupById_ids_nodup _ _
  · have hsorted := List.sorted_mergeSort sortKeyLE_trans sortKeyLE_total
      (dedupById (rawFailures reports) [])
    exact hsorted.imp fun h => by
      simpa only [sortKeyLE, decide_eq_true_eq] using h
  · intro g hg
    exact dedupById_find _ [] g (hperm.mem_iff.1 hg)
  · intro f hf
    obtain ⟨g, hg, he⟩ :=
      dedupById_id_mem _ [] f hf (List.not_mem_nil f.id)
    exact ⟨g, hperm.mem_iff.2 hg, he⟩

/-- Witness for C4: two records sharing the id `f;s` across two shards
collapse to the first one, whose record is found in the raw list. -/
theorem dedup_sort_by_uri_line_witness :
    (rawFailures
      [[⟨some ("a.feature".toList),
          [⟨some scenarioTypeStr, 4, "s".toList, "f;s".toList,
            [⟨⟨some failedStr, some ("e1".toList)⟩⟩]⟩]⟩],
       [⟨some ("a.feature".toList),
          [⟨some scenarioTypeStr, 4, "s".toList, "f;s".toList,
            [⟨⟨some failedStr, some ("e2".toList)⟩⟩]⟩]⟩]]).find?
      (fun x => x.id == ("f;s".toList)) =
      some ⟨"a.feature".toList, 4, "s".toList, "f;s".toList, "e1".toList⟩ := by
  have h := (dedup_sort_by_uri_line
    [[⟨some ("a.feature".toList),
        [⟨some scenarioTypeStr, 4, "s".toList, "f;s".toList,
          [⟨⟨some failedStr, some ("e1".toList)⟩⟩]⟩]⟩],
     [⟨some ("a.feature".toList),
        [⟨some scenarioTypeStr, 4, "s".toList, "f;s".toList,
          [⟨⟨some failedStr, some ("e2".toList)⟩⟩]⟩]⟩]]).2.2.1
    ⟨"a.feature".toList, 4, "s".toList, "f;s".toList, "e1".toList⟩
    (by
      unfold analyze_failures
      rw [(List.mergeSort_perm _ sortKeyLE).mem_iff]
      decide)
  simpa using h

end SkipScenarios
